import Mathlib

/-!
Shallow embedding of the mars-trie repository's TAIL, Config and Key
subsystems (src/src/louds_trie/tail.rs, src/src/config.rs, src/src/key.rs),
with proofs of the specification claims about them.

Bytes are modelled as `Nat` (u8 values), byte slices as `List Nat`, and the
bit vector `BitVec` as `List Bool`.  The source's `assert!` / `panic!` aborts
are modelled as `Except MarisaError` failures carrying the MARISA error kind
named in the assert message.  The `u32` size guards (`MARISA_SIZE_ERROR`,
`assert!(i <= u32::MAX)`) are idealized away: the model uses unbounded `Nat`
lengths and offsets, and no arithmetic in the modelled code can overflow
before such a guard would fire.
-/

/-- Decidable equality for `Except`, used to evaluate the model on concrete
inputs. -/
instance {ε α : Type} [DecidableEq ε] [DecidableEq α] :
    DecidableEq (Except ε α) :=
  fun a b =>
    match a, b with
    | .error e, .error f => decidable_of_iff (e = f) (by simp)
    | .ok x, .ok y => decidable_of_iff (x = y) (by simp)
    | .error _, .ok _ => isFalse (by simp)
    | .ok _, .error _ => isFalse (by simp)

namespace MarsTrie

/-- Error kinds of the library, after the spec's §7 taxonomy.  The source
signals them as `assert!`/`panic!` messages (`MARISA_CODE_ERROR`,
`MARISA_STATE_ERROR`, `MARISA_RANGE_ERROR`, ...); `ConfigError` is listed by
the spec but no assert in the source carries it. -/
inductive MarisaError where
  | ConfigError
  | SizeError
  | BoundError
  | RangeError
  | StateError
  | CodeError
deriving DecidableEq, Repr

/-- TailMode from src/src/config.rs (discriminant values handled separately
by `TailMode.toFlags`). -/
inductive TailMode where
  | Text
  | Binary
deriving DecidableEq, Repr

/-- Modelled from the spec: `Entry` (entry.rs is not under src/): "A byte
slice carrying a mutable build-time id".  `slice_` is the byte slice,
`id_` the build-time id. -/
structure Entry where
  slice_ : List Nat
  id_ : Nat
deriving DecidableEq, Repr

namespace Entry

def len (e : Entry) : Nat := e.slice_.length

def is_empty (e : Entry) : Bool := e.slice_.isEmpty

def get_id (e : Entry) : Nat := e.id_

def set_id (e : Entry) (i : Nat) : Entry := { e with id_ := i }

end Entry

/-- Modelled from the spec: `entry::common_count` (entry.rs is not under
src/).  Tail::build shares a stored suffix when "the current entry's reverse
is a suffix of the previous entry's reverse", tested in the source as
`entry.common_count(last) == entry.len()`; accordingly `common_count`
counts the longest common prefix of the two slices. -/
def common_count : List Nat → List Nat → Nat
  | a :: as, b :: bs => if a = b then common_count as bs + 1 else 0
  | _, _ => 0

/-- Modelled from the spec: `entry::cmp_slice` (entry.rs is not under src/):
"Sort entries lexicographically" — lexicographic slice order as a boolean
`le`, used as the comparator of the (stable) merge sort standing in for
`entries.sort_by(&entry::cmp_slice)`. -/
def sliceLe : List Nat → List Nat → Bool
  | [], _ => true
  | _ :: _, [] => false
  | a :: as, b :: bs => if a < b then true else if b < a then false else sliceLe as bs

/-- Tail from src/src/louds_trie/tail.rs: flat byte buffer plus the Binary
mode end-flag bit vector (`BitVec` modelled as `List Bool`). -/
structure Tail where
  buf_ : List Nat
  end_flags_ : List Bool
deriving DecidableEq, Repr

/-- Tail::new. -/
def Tail.new : Tail := ⟨[], []⟩

/-- Mutable loop state of Tail::build: output buffer and end flags under
construction, the `tmp` offsets array, and the `optLast` previous entry. -/
structure BuildState where
  buf : List Nat
  endFlags : List Bool
  tmp : List Nat
  optLast : Option Entry
deriving Repr

/-- The `doPush` arm of the Tail::build loop body: record the fresh offset,
append the entry's bytes reversed, and emit the terminator (Text: one NUL
byte; Binary: `len-1` zero flags then a one flag). -/
def pushEntry (mode : TailMode) (st : BuildState) (e : Entry) : BuildState :=
  { buf := st.buf ++ e.slice_.reverse ++ (match mode with
      | .Text => [0]
      | .Binary => []),
    endFlags := st.endFlags ++ (match mode with
      | .Text => []
      | .Binary => List.replicate (e.len - 1) false ++ [true]),
    tmp := st.tmp.set e.get_id st.buf.length,
    optLast := some e }

/-- One iteration of the Tail::build loop over `entries.iter().rev()`.
`tmp` reads/writes are in bounds whenever the ids are smaller than
`tmp.length`, which build guarantees; out of bounds they default (getD 0,
set no-op) where the source would abort on the index. -/
def buildStep (mode : TailMode) (st : BuildState) (e : Entry) : BuildState :=
  match st.optLast with
  | some last =>
      if common_count e.slice_ last.slice_ = e.len then
        { st with
          tmp := st.tmp.set e.get_id (st.tmp.getD last.get_id 0 + (last.len - e.len)),
          optLast := some e }
      else pushEntry mode st e
  | none => pushEntry mode st e

/-- The Tail::build loop, processing the given list in order (build passes
the sorted entries reversed). -/
def buildLoop (mode : TailMode) (st : BuildState) : List Entry → BuildState
  | [] => st
  | e :: es => buildLoop mode (buildStep mode st e) es

/-- The `entry.set_id(i)` numbering pass of Tail::build, starting at `k`. -/
def setIdsFrom (k : Nat) : List Entry → List Entry
  | [] => []
  | e :: es => e.set_id k :: setIdsFrom (k + 1) es

/-- Insert an entry into a list sorted by `le`, after all elements `f` with
`le f e` (so a left fold inserting later elements keeps equal elements in
arrival order). -/
def insertSorted (le : Entry → Entry → Bool) (e : Entry) :
    List Entry → List Entry
  | [] => [e]
  | f :: fs => if le f e then f :: insertSorted le e fs else e :: f :: fs

/-- Stable insertion sort standing in for the source's stable
`entries.sort_by(&entry::cmp_slice)`: a stable sort w.r.t. the total
preorder `cmp_slice` produces one and the same list whatever the sorting
algorithm, and insertion sort is structurally recursive, hence evaluable. -/
def sortBy (le : Entry → Entry → Bool) (l : List Entry) : List Entry :=
  l.foldl (fun acc e => insertSorted le e acc) []

/-- The mode adjustment at the top of Tail::build: Text downgrades to Binary
when any entry contains a zero byte; Binary stays Binary. -/
def effectiveTailMode (entries : List Entry) (mode : TailMode) : TailMode :=
  match mode with
  | .Text =>
      if entries.any (fun e => e.slice_.any (fun x => x == 0)) then .Binary
      else .Text
  | .Binary => .Binary

/-- Tail::build from src/src/louds_trie/tail.rs.  The per-entry
`assert!(!entry.is_empty(), "MARISA_RANGE_ERROR")` inside the loop aborts
the whole build, modelled as the upfront emptiness check; the returned pair
is the built Tail and the `offsets` output vector. -/
def Tail.build (entries : List Entry) (mode : TailMode) :
    Except MarisaError (Tail × List Nat) :=
  if entries.all (fun e => !e.is_empty) then
    let mode1 := effectiveTailMode entries mode
    let withIds := setIdsFrom 0 entries
    let sorted := sortBy (fun a b => sliceLe a.slice_ b.slice_) withIds
    let st := buildLoop mode1 ⟨[], [], List.replicate entries.length 0, none⟩
                sorted.reverse
    .ok (⟨st.buf, st.endFlags⟩, st.tmp)
  else .error .RangeError

/-- Text arm of Tail::restore: walk the buffer from the offset (already
dropped), stopping before the first NUL. -/
def textRestore : List Nat → List Nat
  | [] => []
  | c :: cs => if c = 0 then [] else c :: textRestore cs

/-- Binary arm of Tail::restore: emit each byte, stopping after the byte
whose end flag is set (buffer and flags both already dropped to the
offset; a missing flag reads as false, as `BitVec::at` is only consulted in
bounds by the source). -/
def binRestore : List Nat → List Bool → List Nat
  | [], _ => []
  | c :: cs, [] => c :: binRestore cs []
  | c :: cs, f :: fs => if f then [c] else c :: binRestore cs fs

/-- Tail::restore from src/src/louds_trie/tail.rs: append the entry stored
at `offset` to `key_out`; `MARISA_STATE_ERROR` on an empty buffer. -/
def Tail.restore (t : Tail) (offset : Nat) (key_out : List Nat) :
    Except MarisaError (List Nat) :=
  if t.buf_.isEmpty then .error .StateError
  else if t.end_flags_.isEmpty then
    .ok (key_out ++ textRestore (t.buf_.drop offset))
  else
    .ok (key_out ++ binRestore (t.buf_.drop offset) (t.end_flags_.drop offset))

/-- Tail::mode. -/
def Tail.mode (t : Tail) : TailMode :=
  if t.end_flags_.isEmpty then .Text else .Binary

/-- Tail::is_empty. -/
def Tail.is_empty (t : Tail) : Bool := t.buf_.isEmpty

end MarsTrie

namespace MarsTrie

/-! Config (src/src/config.rs). -/

/-- NumTries from src/src/config.rs: a u32 wrapper. -/
structure NumTries where
  num_ : Nat
deriving DecidableEq, Repr

def MIN_NUM_TRIES : Nat := 0x00001
def MAX_NUM_TRIES : Nat := 0x0007F

/-- NumTries::new: `assert!(num >= MIN_NUM_TRIES && num <= MAX_NUM_TRIES)`;
the unlabelled assert abort is modelled as `none`. -/
def NumTries.new (num : Nat) : Option NumTries :=
  if MIN_NUM_TRIES ≤ num ∧ num ≤ MAX_NUM_TRIES then some ⟨num⟩ else none

def NumTries.get (n : NumTries) : Nat := n.num_

/-- NumTries default: `NumTries::new(3)`. -/
def NumTries.defaultVal : Option NumTries := NumTries.new 3

/-- CacheLevel from src/src/config.rs. -/
inductive CacheLevel where
  | Huge
  | Large
  | Normal
  | Small
  | Tiny
deriving DecidableEq, Repr

/-- Discriminant values of CacheLevel. -/
def CacheLevel.toFlags : CacheLevel → Nat
  | .Huge => 0x00080
  | .Large => 0x00100
  | .Normal => 0x00200
  | .Small => 0x00400
  | .Tiny => 0x00800

/-- Discriminant values of TailMode. -/
def TailMode.toFlags : TailMode → Nat
  | .Text => 0x01000
  | .Binary => 0x02000

/-- NodeOrder from src/src/config.rs. -/
inductive NodeOrder where
  | Label
  | Weight
deriving DecidableEq, Repr

/-- Discriminant values of NodeOrder. -/
def NodeOrder.toFlags : NodeOrder → Nat
  | .Label => 0x10000
  | .Weight => 0x20000

def NUM_TRIES_MASK : Nat := 0x0007F
def CACHE_LEVEL_MASK : Nat := 0x00F80
def TAIL_MODE_MASK : Nat := 0x0F000
def NODE_ORDER_MASK : Nat := 0xF0000
def CONFIG_MASK : Nat := 0xFFFFF

/-- Complement of CONFIG_MASK within u32 (`!CONFIG_MASK` at 32 bits). -/
def NOT_CONFIG_MASK : Nat := 0xFFF00000

/-- Config from src/src/config.rs. -/
structure Config where
  num_tries_ : NumTries
  cache_level_ : CacheLevel
  tail_mode_ : TailMode
  node_order_ : NodeOrder
deriving DecidableEq, Repr

/-- Config::new: all defaults. -/
def Config.new : Config :=
  ⟨⟨3⟩, .Normal, .Text, .Weight⟩

/-- Config::parse_num_tries: keep the default on a zero field, else
`NumTries::new` on the field value (whose plain assert cannot fire here,
mapped to the code-error kind). -/
def Config.parse_num_tries (config_flags : Nat) :
    Except MarisaError NumTries :=
  let num_tries := config_flags &&& NUM_TRIES_MASK
  if num_tries ≠ 0 then
    match NumTries.new num_tries with
    | some nt => .ok nt
    | none => .error .CodeError
  else .ok ⟨3⟩

/-- Config::parse_cache_level: `panic!("MARISA_CODE_ERROR: undefined cache
level")` on an unrecognized field value. -/
def Config.parse_cache_level (config_flags : Nat) :
    Except MarisaError CacheLevel :=
  let x := config_flags &&& CACHE_LEVEL_MASK
  if x = 0 then .ok .Normal
  else if x = CacheLevel.Huge.toFlags then .ok .Huge
  else if x = CacheLevel.Large.toFlags then .ok .Large
  else if x = CacheLevel.Normal.toFlags then .ok .Normal
  else if x = CacheLevel.Small.toFlags then .ok .Small
  else if x = CacheLevel.Tiny.toFlags then .ok .Tiny
  else .error .CodeError

/-- Config::parse_tail_mode: `panic!("MARISA_CODE_ERROR: undefined tail
mode")` on an unrecognized field value. -/
def Config.parse_tail_mode (config_flags : Nat) :
    Except MarisaError TailMode :=
  let x := config_flags &&& TAIL_MODE_MASK
  if x = 0 then .ok .Text
  else if x = TailMode.Text.toFlags then .ok .Text
  else if x = TailMode.Binary.toFlags then .ok .Binary
  else .error .CodeError

/-- Config::parse_node_order: `panic!("MARISA_CODE_ERROR: undefined node
order")` on an unrecognized field value. -/
def Config.parse_node_order (config_flags : Nat) :
    Except MarisaError NodeOrder :=
  let x := config_flags &&& NODE_ORDER_MASK
  if x = 0 then .ok .Weight
  else if x = NodeOrder.Label.toFlags then .ok .Label
  else if x = NodeOrder.Weight.toFlags then .ok .Weight
  else .error .CodeError

/-- Config::parse from src/src/config.rs: `assert!((config_flags &
!CONFIG_MASK) == 0, "MARISA_CODE_ERROR")`, then parse each field. -/
def Config.parse (config_flags : Nat) : Except MarisaError Config :=
  if config_flags &&& NOT_CONFIG_MASK ≠ 0 then .error .CodeError
  else
    match Config.parse_num_tries config_flags with
    | .error e => .error e
    | .ok nt =>
      match Config.parse_cache_level config_flags with
      | .error e => .error e
      | .ok cl =>
        match Config.parse_tail_mode config_flags with
        | .error e => .error e
        | .ok tm =>
          match Config.parse_node_order config_flags with
          | .error e => .error e
          | .ok no => .ok ⟨nt, cl, tm, no⟩

/-- Config::flags from src/src/config.rs: num_tries | tail_mode |
node_order (cache_level is not included by the source). -/
def Config.flags (c : Config) : Nat :=
  c.num_tries_.get ||| c.tail_mode_.toFlags ||| c.node_order_.toFlags

end MarsTrie

namespace MarsTrie

/-! Key / ReverseKey (src/src/key.rs).  The weight/terminal union and the
id field do not participate in the indexing claims; only the slice is
modelled. -/

/-- Key from src/src/key.rs (slice part). -/
structure Key where
  slice_ : List Nat
deriving DecidableEq, Repr

/-- Key::at: forward indexing (`self.slice_[i]`, a panic out of bounds). -/
def Key.atIdx (k : Key) (i : Nat) : Option Nat := k.slice_[i]?

/-- Key::subslice: keep `slice_[pos..pos+length]`; `MARISA_BOUND_ERROR`
when `length > len` or `pos > len - length`. -/
def Key.subslice (k : Key) (pos length : Nat) : Except MarisaError Key :=
  if length ≤ k.slice_.length ∧ pos ≤ k.slice_.length - length then
    .ok ⟨(k.slice_.drop pos).take length⟩
  else .error .BoundError

/-- ReverseKey from src/src/key.rs (slice part). -/
structure ReverseKey where
  slice_ : List Nat
deriving DecidableEq, Repr

/-- ReverseKey::at: `self.slice_[self.slice_.len() - i - 1]` (a panic out
of bounds). -/
def ReverseKey.atIdx (k : ReverseKey) (i : Nat) : Option Nat :=
  k.slice_[k.slice_.length - i - 1]?

/-- ReverseKey::subslice: `new_end = len - pos; new_begin = new_end -
length; slice_ = slice_[new_begin..new_end]`; `MARISA_BOUND_ERROR` when
`length > len` or `pos > len - length`. -/
def ReverseKey.subslice (k : ReverseKey) (pos length : Nat) :
    Except MarisaError ReverseKey :=
  if length ≤ k.slice_.length ∧ pos ≤ k.slice_.length - length then
    .ok ⟨(k.slice_.drop (k.slice_.length - pos - length)).take length⟩
  else .error .BoundError

end MarsTrie

namespace MarsTrie

/-- Specification predicate for the Tail::build loop invariant: the bytes
`bs` are stored at offset `o` of the buffer, i.e. the buffer from `o`
starts with `bs` reversed followed by its terminator (Text: a NUL after
zero-free bytes; Binary: an end-flag run of `len-1` zeros then a one,
aligned with the buffer). -/
def RegionOK : TailMode → List Nat → List Bool → Nat → List Nat → Prop
  | .Text, buf, _flags, o, bs =>
      0 ∉ bs ∧ ∃ rest, buf.drop o = bs.reverse ++ 0 :: rest
  | .Binary, buf, flags, o, bs =>
      ∃ rest frest, buf.drop o = bs.reverse ++ rest ∧
        flags.drop o = List.replicate (bs.length - 1) false ++ true :: frest

/-! Theorems. -/

/-- Helper: the Text-mode build loop never touches the end-flag vector. -/
lemma buildLoop_text_endFlags (es : List Entry) (st : BuildState) :
    (buildLoop .Text st es).endFlags = st.endFlags := by
  induction es generalizing st with
  | nil => rfl
  | cons e es ih =>
      rw [buildLoop, ih]
      cases hl : st.optLast with
      | none => simp [buildStep, pushEntry, hl]
      | some last =>
          simp only [buildStep, hl]
          split
          · rfl
          · simp [pushEntry]

/-- C8: Tail::restore on a Tail whose buffer is empty fails with
StateError; the assert fires before any byte is pushed, so nothing is
appended to the output buffer. -/
theorem restore_empty_tail_state_error (flags : List Bool) (offset : Nat)
    (key_out : List Nat) :
    Tail.restore ⟨[], flags⟩ offset key_out = .error .StateError := rfl

/-- C7: NumTries::new succeeds exactly on arguments in [1, 127], failing
on 0 and on every value above 127; the default NumTries is 3. -/
theorem numTries_new_bounds :
    (∀ num : Nat, (NumTries.new num).isSome ↔ (1 ≤ num ∧ num ≤ 127)) ∧
    NumTries.defaultVal = some ⟨3⟩ := by
  refine ⟨fun num => ?_, rfl⟩
  unfold NumTries.new MIN_NUM_TRIES MAX_NUM_TRIES
  split <;> simp_all

/-- C9: ReverseKey::at returns `s[n-1-i]` and ReverseKey::subslice keeps
`s[n-pos-length .. n-pos]` — indexing and sub-slicing from the tail end —
while Key::at and Key::subslice operate forward. -/
theorem reverseKey_tail_end_indexing (s : List Nat) (i pos length : Nat)
    (hi : i < s.length) (hpl : pos + length ≤ s.length) :
    ReverseKey.atIdx ⟨s⟩ i = some (s.get ⟨s.length - 1 - i, by omega⟩) ∧
    ReverseKey.subslice ⟨s⟩ pos length =
      .ok ⟨(s.drop (s.length - pos - length)).take length⟩ ∧
    Key.atIdx ⟨s⟩ i = some (s.get ⟨i, hi⟩) ∧
    Key.subslice ⟨s⟩ pos length = .ok ⟨(s.drop pos).take length⟩ := by
  have hk : s.length - i - 1 = s.length - 1 - i := by omega
  have hc : length ≤ s.length ∧ pos ≤ s.length - length := ⟨by omega, by omega⟩
  refine ⟨?_, ?_, ?_, ?_⟩
  · rw [ReverseKey.atIdx]
    simp only [hk]
    rw [List.getElem?_eq_getElem (by omega)]
    simp
  · rw [ReverseKey.subslice, if_pos hc]
  · rw [Key.atIdx, List.getElem?_eq_getElem hi]
    simp
  · rw [Key.subslice, if_pos hc]

/-- Witness for C9 at a concrete key. -/
theorem reverseKey_tail_end_indexing_witness :
    ReverseKey.atIdx ⟨[10, 20, 30]⟩ 0 = some 30 ∧
    ReverseKey.subslice ⟨[10, 20, 30]⟩ 1 1 = .ok ⟨[20]⟩ := by
  have h := reverseKey_tail_end_indexing [10, 20, 30] 0 1 1 (by decide)
    (by decide)
  exact ⟨by simpa using h.1, by simpa using h.2.1⟩

/-- C2: calling Tail::build in Text mode with a zero byte present in some
entry behaves exactly as a Binary-mode build — same result, no error
signalled — while with no zero byte present the Text mode is kept (the
built Tail reports mode Text). -/
theorem tail_build_text_downgrade (entries : List Entry) :
    ((∃ e ∈ entries, 0 ∈ e.slice_) →
      Tail.build entries .Text = Tail.build entries .Binary) ∧
    ((∀ e ∈ entries, 0 ∉ e.slice_) → ∀ t offsets,
      Tail.build entries .Text = .ok (t, offsets) → t.mode = .Text) := by
  constructor
  · intro hz
    have hany : entries.any (fun e => e.slice_.any (fun x => x == 0)) = true := by
      obtain ⟨e, he, h0⟩ := hz
      rw [List.any_eq_true]
      refine ⟨e, he, ?_⟩
      rw [List.any_eq_true]
      exact ⟨0, h0, by simp⟩
    simp only [Tail.build, effectiveTailMode, hany, if_true]
  · intro hz t offsets hb
    have hany : entries.any (fun e => e.slice_.any (fun x => x == 0)) = false := by
      rw [List.any_eq_false]
      intro e he
      rw [List.any_eq_true]
      rintro ⟨x, hx, hx0⟩
      exact hz e he ((eq_of_beq hx0) ▸ hx)
    have hmode : effectiveTailMode entries .Text = .Text := by
      simp only [effectiveTailMode, hany]
      simp
    rw [Tail.build, hmode] at hb
    by_cases hall : entries.all (fun e => !e.is_empty)
    · rw [if_pos hall] at hb
      injection hb with h
      injection h with h1 h2
      rw [Tail.mode, ← h1]
      simp [buildLoop_text_endFlags]
    · rw [if_neg hall] at hb
      cases hb

/-- Witness for C2 at a concrete entry vector containing a zero byte. -/
theorem tail_build_text_downgrade_witness :
    Tail.build [⟨[1, 0], 5⟩] .Text = Tail.build [⟨[1, 0], 5⟩] .Binary :=
  (tail_build_text_downgrade [⟨[1, 0], 5⟩]).1 ⟨⟨[1, 0], 5⟩, by simp, by simp⟩

instance : Fintype TailMode :=
  ⟨⟨{.Text, .Binary}, by decide⟩, by intro x; cases x <;> decide⟩

instance : Fintype NodeOrder :=
  ⟨⟨{.Label, .Weight}, by decide⟩, by intro x; cases x <;> decide⟩

instance : Fintype CacheLevel :=
  ⟨⟨{.Huge, .Large, .Normal, .Small, .Tiny}, by decide⟩,
   by intro x; cases x <;> decide⟩

/-- Helper: the num_tries field always parses (the masked value is at most
127, so NumTries::new cannot fail from parse). -/
lemma parse_num_tries_ok (c : Nat) :
    ∃ nt, Config.parse_num_tries c = .ok nt := by
  simp only [Config.parse_num_tries]
  by_cases h : c &&& NUM_TRIES_MASK = 0
  · rw [if_neg (by simp [h])]
    exact ⟨⟨3⟩, rfl⟩
  · rw [if_pos h]
    have h127 : c &&& NUM_TRIES_MASK ≤ 127 := Nat.and_le_right
    rw [NumTries.new, if_pos ⟨Nat.one_le_iff_ne_zero.mpr h, h127⟩]
    exact ⟨⟨c &&& NUM_TRIES_MASK⟩, rfl⟩

/-- Helper: what an accepted num_tries field parses to. -/
lemma parse_num_tries_spec (c : Nat) (nt : NumTries)
    (h : Config.parse_num_tries c = .ok nt) :
    (c &&& NUM_TRIES_MASK = 0 → nt = ⟨3⟩) ∧
    (c &&& NUM_TRIES_MASK ≠ 0 → nt = ⟨c &&& NUM_TRIES_MASK⟩) := by
  simp only [Config.parse_num_tries] at h
  by_cases h0 : c &&& NUM_TRIES_MASK = 0
  · rw [if_neg (by simp [h0])] at h
    injection h with h
    exact ⟨fun _ => h.symm, fun hn => absurd h0 hn⟩
  · rw [if_pos h0] at h
    have h127 : c &&& NUM_TRIES_MASK ≤ 127 := Nat.and_le_right
    rw [NumTries.new, if_pos ⟨Nat.one_le_iff_ne_zero.mpr h0, h127⟩] at h
    injection h with h
    exact ⟨fun hz => absurd hz h0, fun _ => h.symm⟩

/-- Helper: what an accepted cache_level field parses to. -/
lemma parse_cache_level_spec (c : Nat) (cl : CacheLevel)
    (h : Config.parse_cache_level c = .ok cl) :
    (c &&& CACHE_LEVEL_MASK = 0 → cl = .Normal) ∧
    (∀ lv : CacheLevel, c &&& CACHE_LEVEL_MASK = lv.toFlags → cl = lv) := by
  constructor
  · intro h0
    simp only [Config.parse_cache_level, h0] at h
    simp at h
    exact h.symm
  · intro lv hlv
    simp only [Config.parse_cache_level, hlv] at h
    cases lv <;> simp [CacheLevel.toFlags] at h <;> exact h.symm

/-- Helper: what an accepted tail_mode field parses to. -/
lemma parse_tail_mode_spec (c : Nat) (tm : TailMode)
    (h : Config.parse_tail_mode c = .ok tm) :
    (c &&& TAIL_MODE_MASK = 0 → tm = .Text) ∧
    (∀ t : TailMode, c &&& TAIL_MODE_MASK = t.toFlags → tm = t) := by
  constructor
  · intro h0
    simp only [Config.parse_tail_mode, h0] at h
    simp at h
    exact h.symm
  · intro t ht
    simp only [Config.parse_tail_mode, ht] at h
    cases t <;> simp [TailMode.toFlags] at h <;> exact h.symm

/-- Helper: what an accepted node_order field parses to. -/
lemma parse_node_order_spec (c : Nat) (no : NodeOrder)
    (h : Config.parse_node_order c = .ok no) :
    (c &&& NODE_ORDER_MASK = 0 → no = .Weight) ∧
    (∀ o : NodeOrder, c &&& NODE_ORDER_MASK = o.toFlags → no = o) := by
  constructor
  · intro h0
    simp only [Config.parse_node_order, h0] at h
    simp at h
    exact h.symm
  · intro o ho
    simp only [Config.parse_node_order, ho] at h
    cases o <;> simp [NodeOrder.toFlags] at h <;> exact h.symm

/-- C6: every flag word accepted by Config::parse yields, field by field,
the default on an all-zero field (num_tries 3, cache_level Normal,
tail_mode Text, node_order Weight) and the encoded value on a non-zero
recognized field. -/
theorem config_parse_field_defaults (c : Nat) (hc : c < 2 ^ 32)
    (cfg : Config) (h : Config.parse c = .ok cfg) :
    (c &&& NUM_TRIES_MASK = 0 → cfg.num_tries_ = ⟨3⟩) ∧
    (c &&& NUM_TRIES_MASK ≠ 0 → cfg.num_tries_ = ⟨c &&& NUM_TRIES_MASK⟩) ∧
    (c &&& CACHE_LEVEL_MASK = 0 → cfg.cache_level_ = .Normal) ∧
    (∀ lv : CacheLevel, c &&& CACHE_LEVEL_MASK = lv.toFlags →
      cfg.cache_level_ = lv) ∧
    (c &&& TAIL_MODE_MASK = 0 → cfg.tail_mode_ = .Text) ∧
    (∀ tm : TailMode, c &&& TAIL_MODE_MASK = tm.toFlags →
      cfg.tail_mode_ = tm) ∧
    (c &&& NODE_ORDER_MASK = 0 → cfg.node_order_ = .Weight) ∧
    (∀ no : NodeOrder, c &&& NODE_ORDER_MASK = no.toFlags →
      cfg.node_order_ = no) := by
  rw [Config.parse] at h
  by_cases hm : c &&& NOT_CONFIG_MASK ≠ 0
  · rw [if_pos hm] at h; cases h
  · rw [if_neg hm] at h
    cases hnt : Config.parse_num_tries c with
    | error e => simp only [hnt] at h; exact Except.noConfusion h
    | ok nt =>
      simp only [hnt] at h
      cases hcl : Config.parse_cache_level c with
      | error e => simp only [hcl] at h; exact Except.noConfusion h
      | ok cl =>
        simp only [hcl] at h
        cases htm : Config.parse_tail_mode c with
        | error e => simp only [htm] at h; exact Except.noConfusion h
        | ok tm =>
          simp only [htm] at h
          cases hno : Config.parse_node_order c with
          | error e => simp only [hno] at h; exact Except.noConfusion h
          | ok no =>
            simp only [hno] at h
            injection h with h
            subst h
            obtain ⟨s1, s2⟩ := parse_num_tries_spec c nt hnt
            obtain ⟨s3, s4⟩ := parse_cache_level_spec c cl hcl
            obtain ⟨s5, s6⟩ := parse_tail_mode_spec c tm htm
            obtain ⟨s7, s8⟩ := parse_node_order_spec c no hno
            exact ⟨s1, s2, s3, s4, s5, s6, s7, s8⟩

/-- Witness for C6 at the concrete flag word 0x22005 (num_tries 5, cache
field zero, tail_mode Binary, node_order Weight). -/
theorem config_parse_field_defaults_witness :
    Config.parse 0x22005 = .ok ⟨⟨5⟩, .Normal, .Binary, .Weight⟩ ∧
    (0x22005 &&& CACHE_LEVEL_MASK : Nat) = 0 ∧
    (⟨⟨5⟩, .Normal, .Binary, .Weight⟩ : Config).cache_level_ = .Normal := by
  have hp : Config.parse 0x22005 = .ok ⟨⟨5⟩, .Normal, .Binary, .Weight⟩ := by
    decide
  exact ⟨hp, by decide,
    (config_parse_field_defaults 0x22005 (by norm_num) _ hp).2.2.1 (by decide)⟩

/-- Counterexample for C5 as stated: at the concrete flag word 0x100000
(bit 20 set, outside the 20-bit mask) Config::parse does fail, but with the
code-error kind (`MARISA_CODE_ERROR`), not with ConfigError. -/
theorem config_parse_config_error_counterexample :
    Config.parse 0x100000 = .error .CodeError ∧
    Config.parse 0x100000 ≠ .error .ConfigError := by
  constructor
  · decide
  · decide

/-- Helper: an error from parse_cache_level is always CodeError. -/
lemma parse_cache_level_error_kind (c : Nat) (e : MarisaError)
    (h : Config.parse_cache_level c = .error e) : e = .CodeError := by
  simp only [Config.parse_cache_level] at h
  split_ifs at h <;> simp_all

/-- Helper: an error from parse_tail_mode is always CodeError. -/
lemma parse_tail_mode_error_kind (c : Nat) (e : MarisaError)
    (h : Config.parse_tail_mode c = .error e) : e = .CodeError := by
  simp only [Config.parse_tail_mode] at h
  split_ifs at h <;> simp_all

/-- Helper: an unrecognized non-zero cache-level field parses to the
code error. -/
lemma parse_cache_level_bad (c : Nat) (h0 : c &&& CACHE_LEVEL_MASK ≠ 0)
    (h : ∀ lv : CacheLevel, c &&& CACHE_LEVEL_MASK ≠ lv.toFlags) :
    Config.parse_cache_level c = .error .CodeError := by
  simp only [Config.parse_cache_level]
  rw [if_neg h0, if_neg (h .Huge), if_neg (h .Large), if_neg (h .Normal),
    if_neg (h .Small), if_neg (h .Tiny)]

/-- Helper: an unrecognized non-zero tail-mode field parses to the code
error. -/
lemma parse_tail_mode_bad (c : Nat) (h0 : c &&& TAIL_MODE_MASK ≠ 0)
    (h : ∀ tm : TailMode, c &&& TAIL_MODE_MASK ≠ tm.toFlags) :
    Config.parse_tail_mode c = .error .CodeError := by
  simp only [Config.parse_tail_mode]
  rw [if_neg h0, if_neg (h .Text), if_neg (h .Binary)]

/-- Helper: an unrecognized non-zero node-order field parses to the code
error. -/
lemma parse_node_order_bad (c : Nat) (h0 : c &&& NODE_ORDER_MASK ≠ 0)
    (h : ∀ no : NodeOrder, c &&& NODE_ORDER_MASK ≠ no.toFlags) :
    Config.parse_node_order c = .error .CodeError := by
  simp only [Config.parse_node_order]
  rw [if_neg h0, if_neg (h .Label), if_neg (h .Weight)]

/-- C5 (amended): Config::parse fails — with the code-error kind
`MARISA_CODE_ERROR`, the source's assert/panic label, rather than the
spec's ConfigError — on any 32-bit flag word with a bit set outside the
20-bit configuration mask, or whose cache-level, tail-mode or node-order
field holds a non-zero value that is not one of that field's reserved
encodings. -/
theorem config_parse_rejects_invalid_flags (c : Nat) (hc : c < 2 ^ 32)
    (h : c &&& NOT_CONFIG_MASK ≠ 0 ∨
      (c &&& CACHE_LEVEL_MASK ≠ 0 ∧
        ∀ lv : CacheLevel, c &&& CACHE_LEVEL_MASK ≠ lv.toFlags) ∨
      (c &&& TAIL_MODE_MASK ≠ 0 ∧
        ∀ tm : TailMode, c &&& TAIL_MODE_MASK ≠ tm.toFlags) ∨
      (c &&& NODE_ORDER_MASK ≠ 0 ∧
        ∀ no : NodeOrder, c &&& NODE_ORDER_MASK ≠ no.toFlags)) :
    Config.parse c = .error .CodeError := by
  rw [Config.parse]
  by_cases hm : c &&& NOT_CONFIG_MASK ≠ 0
  · rw [if_pos hm]
  · rw [if_neg hm]
    obtain ⟨nt, hnt⟩ := parse_num_tries_ok c
    simp only [hnt]
    rcases h with h | h | h | h
    · exact absurd h hm
    · simp only [parse_cache_level_bad c h.1 h.2]
    · cases hcl : Config.parse_cache_level c with
      | error e => simp only [parse_cache_level_error_kind c e hcl]
      | ok cl =>
          simp only [hcl]
          simp only [parse_tail_mode_bad c h.1 h.2]
    · cases hcl : Config.parse_cache_level c with
      | error e => simp only [parse_cache_level_error_kind c e hcl]
      | ok cl =>
          simp only [hcl]
          cases htm : Config.parse_tail_mode c with
          | error e => simp only [parse_tail_mode_error_kind c e htm]
          | ok tm =>
              simp only [htm]
              simp only [parse_node_order_bad c h.1 h.2]

/-- Witness for the amended C5 at the concrete flag word 0x3000 (tail-mode
field value 3, not a reserved encoding). -/
theorem config_parse_rejects_invalid_flags_witness :
    Config.parse 0x3000 = .error .CodeError :=
  config_parse_rejects_invalid_flags 0x3000 (by norm_num)
    (Or.inr (Or.inr (Or.inl ⟨by decide, by decide⟩)))

/-- Helper for C10: the flags/parse round trip over the finite domain of
valid field values. -/
lemma config_roundtrip_aux : ∀ n < 128, 1 ≤ n →
    ∀ tm : TailMode, ∀ no : NodeOrder,
    ((n ||| tm.toFlags ||| no.toFlags) &&& CACHE_LEVEL_MASK = 0 ∧
     Config.parse (n ||| tm.toFlags ||| no.toFlags) =
       .ok ⟨⟨n⟩, .Normal, tm, no⟩) := by decide

/-- C10: Config::flags never sets the cache-level bits 7-11, so parsing
the flags of any Config (whose num_tries value is in the valid range
[1,127]) reproduces its num_tries, tail_mode and node_order but always the
default cache_level Normal, whatever cache_level the Config held. -/
theorem config_flags_parse_drops_cache_level (cfg : Config)
    (h1 : 1 ≤ cfg.num_tries_.num_) (h2 : cfg.num_tries_.num_ ≤ 127) :
    cfg.flags &&& CACHE_LEVEL_MASK = 0 ∧
    Config.parse cfg.flags =
      .ok ⟨cfg.num_tries_, .Normal, cfg.tail_mode_, cfg.node_order_⟩ := by
  obtain ⟨⟨n⟩, cl, tm, no⟩ := cfg
  have h1n : 1 ≤ n := h1
  have h2n : n ≤ 127 := h2
  exact config_roundtrip_aux n (by omega) h1n tm no

/-- Witness for C10 at a concrete Config with cache_level Tiny, which
parses back with cache_level Normal. -/
theorem config_flags_parse_drops_cache_level_witness :
    Config.flags ⟨⟨3⟩, .Tiny, .Binary, .Label⟩ &&& CACHE_LEVEL_MASK = 0 ∧
    Config.parse (Config.flags ⟨⟨3⟩, .Tiny, .Binary, .Label⟩) =
      .ok ⟨⟨3⟩, .Normal, .Binary, .Label⟩ :=
  config_flags_parse_drops_cache_level ⟨⟨3⟩, .Tiny, .Binary, .Label⟩
    (by decide) (by decide)

/-- Helper: the common prefix count reaches the first slice's length exactly
when that slice is a prefix of the other. -/
lemma common_count_eq_length_iff :
    ∀ a b : List Nat, (common_count a b = a.length ↔ a <+: b) := by
  intro a
  induction a with
  | nil =>
      intro b
      simp [common_count]
  | cons x xs ih =>
      intro b
      cases b with
      | nil => simp [common_count]
      | cons y ys =>
          rw [common_count]
          by_cases hxy : x = y
          · subst hxy
            simp [List.cons_prefix_cons, ih]
          · simp [hxy, List.cons_prefix_cons]

/-- C3: a Tail::build loop step with a previous entry `last` reuses storage
exactly when the current entry's reverse is a suffix of `last`'s reverse:
then nothing is appended to the buffer and the entry's offset is set to
`offset(last) + (len(last) - len(current))`; otherwise the entry's bytes
are appended reversed (plus the Text terminator) at a fresh offset equal to
the old buffer length. -/
theorem tail_build_step_suffix_sharing (mode : TailMode) (st : BuildState)
    (e last : Entry) (hlast : st.optLast = some last)
    (hid : e.get_id < st.tmp.length) :
    (e.slice_.reverse <:+ last.slice_.reverse →
      (buildStep mode st e).buf = st.buf ∧
      (buildStep mode st e).tmp.getD e.get_id 0 =
        st.tmp.getD last.get_id 0 + (last.len - e.len)) ∧
    (¬ e.slice_.reverse <:+ last.slice_.reverse →
      (buildStep mode st e).buf =
        st.buf ++ e.slice_.reverse ++
          (match mode with | .Text => [0] | .Binary => []) ∧
      (buildStep mode st e).tmp.getD e.get_id 0 = st.buf.length) := by
  have hcc : (common_count e.slice_ last.slice_ = e.len) ↔
      e.slice_.reverse <:+ last.slice_.reverse := by
    rw [List.reverse_suffix]
    exact common_count_eq_length_iff e.slice_ last.slice_
  constructor
  · intro hsuf
    simp only [buildStep, hlast]
    rw [if_pos (hcc.mpr hsuf)]
    refine ⟨rfl, ?_⟩
    rw [List.getD_eq_getElem?_getD, List.getElem?_set_self hid]
    rfl
  · intro hns
    simp only [buildStep, hlast]
    rw [if_neg (fun hc => hns (hcc.mp hc))]
    refine ⟨by simp [pushEntry], ?_⟩
    simp only [pushEntry]
    rw [List.getD_eq_getElem?_getD, List.getElem?_set_self hid]
    rfl

/-- Witness for C3: a sharing step at concrete state, previous entry [1,2]
stored at offset 0 of buffer [2,1,0], current entry [1]. -/
theorem tail_build_step_suffix_sharing_witness :
    (buildStep .Text ⟨[2, 1, 0], [], [0, 0], some ⟨[1, 2], 0⟩⟩
      ⟨[1], 1⟩).buf = [2, 1, 0] ∧
    (buildStep .Text ⟨[2, 1, 0], [], [0, 0], some ⟨[1, 2], 0⟩⟩
      ⟨[1], 1⟩).tmp.getD 1 0 = 1 := by
  have h := (tail_build_step_suffix_sharing .Text
    ⟨[2, 1, 0], [], [0, 0], some ⟨[1, 2], 0⟩⟩ ⟨[1], 1⟩ ⟨[1, 2], 0⟩ rfl
    (by decide)).1 ⟨[2], rfl⟩
  exact ⟨h.1, by simpa [Entry.len] using h.2⟩

/-- Helper: insertion keeps the multiset of entries. -/
lemma insertSorted_perm (le : Entry → Entry → Bool) (e : Entry) :
    ∀ l : List Entry, (insertSorted le e l).Perm (e :: l) := by
  intro l
  induction l with
  | nil => exact List.Perm.refl _
  | cons f fs ih =>
      rw [insertSorted]
      split
      · exact (ih.cons f).trans (List.Perm.swap e f fs)
      · exact List.Perm.refl _

/-- Helper: the insertion-sort fold keeps the multiset of entries. -/
lemma sortBy_fold_perm (le : Entry → Entry → Bool) :
    ∀ (l acc : List Entry),
      (List.foldl (fun acc e => insertSorted le e acc) acc l).Perm
        (acc ++ l) := by
  intro l
  induction l with
  | nil => intro acc; simp
  | cons x xs ih =>
      intro acc
      rw [List.foldl_cons]
      refine ((ih _).trans ?_)
      refine (((insertSorted_perm le x acc).append_right xs).trans ?_)
      exact List.perm_middle.symm

/-- Helper: sorting keeps the multiset of entries. -/
lemma sortBy_perm (le : Entry → Entry → Bool) (l : List Entry) :
    (sortBy le l).Perm l := by
  simpa using sortBy_fold_perm le l []

/-- Helper: id assignment keeps each entry's byte slice. -/
lemma slice_mem_of_mem_setIdsFrom :
    ∀ {k : Nat} {es : List Entry} {e : Entry}, e ∈ setIdsFrom k es →
      ∃ e0 ∈ es, e.slice_ = e0.slice_ := by
  intro k es
  induction es generalizing k with
  | nil => intro e h; cases h
  | cons f fs ih =>
      intro e h
      rw [setIdsFrom, List.mem_cons] at h
      rcases h with h | h
      · exact ⟨f, List.mem_cons_self f fs, by rw [h]; rfl⟩
      · obtain ⟨e0, he0, hs⟩ := ih h
        exact ⟨e0, List.mem_cons_of_mem f he0, hs⟩

/-- Helper: a Text-mode build step leaves the buffer alone or appends one
reversed entry followed by one NUL. -/
lemma buildStep_text_buf (st : BuildState) (e : Entry) :
    (buildStep .Text st e).buf = st.buf ∨
    (buildStep .Text st e).buf = st.buf ++ (e.slice_.reverse ++ [0]) := by
  cases hl : st.optLast with
  | none => right; simp [buildStep, hl, pushEntry]
  | some last =>
      simp only [buildStep, hl]
      split
      · left; rfl
      · right; simp [pushEntry]

/-- Helper: the Text-mode loop keeps the buffer a concatenation of
NUL-terminated zero-free strings. -/
lemma buildLoop_text_shape :
    ∀ (es : List Entry) (st : BuildState),
      (∀ e ∈ es, 0 ∉ e.slice_) →
      (∃ pieces : List (List Nat),
        st.buf = (pieces.map (fun p => p ++ [0])).flatten ∧
        ∀ p ∈ pieces, 0 ∉ p) →
      ∃ pieces : List (List Nat),
        (buildLoop .Text st es).buf =
          (pieces.map (fun p => p ++ [0])).flatten ∧
        ∀ p ∈ pieces, 0 ∉ p := by
  intro es
  induction es with
  | nil => intro st _ h; exact h
  | cons e es ih =>
      intro st hz hshape
      rw [buildLoop]
      refine ih _ (fun f hf => hz f (List.mem_cons_of_mem e hf)) ?_
      obtain ⟨pieces, hbuf, hzero⟩ := hshape
      rcases buildStep_text_buf st e with hb | hb
      · exact ⟨pieces, by rw [hb, hbuf], hzero⟩
      · refine ⟨pieces ++ [e.slice_.reverse], ?_, ?_⟩
        · rw [hb, hbuf]
          simp
        · intro p hp
          rcases List.mem_append.mp hp with hp | hp
          · exact hzero p hp
          · rw [List.mem_singleton.mp hp]
            rw [List.mem_reverse]
            exact hz e (List.mem_cons_self e es)

/-- C4: whenever Tail::build ends up in Text mode, the resulting buffer is
a concatenation of NUL-terminated strings whose contents are zero-free:
every appended entry is zero-free and followed by exactly one 0 byte. -/
theorem tail_text_mode_buffer_invariant (entries : List Entry)
    (mode : TailMode) (t : Tail) (offsets : List Nat)
    (hmode : effectiveTailMode entries mode = .Text)
    (hb : Tail.build entries mode = .ok (t, offsets)) :
    ∃ pieces : List (List Nat),
      t.buf_ = (pieces.map (fun p => p ++ [0])).flatten ∧
      ∀ p ∈ pieces, 0 ∉ p := by
  have hz : ∀ e ∈ entries, 0 ∉ e.slice_ := by
    cases mode with
    | Binary => cases hmode
    | Text =>
        intro e he h0
        have hany : entries.any (fun e => e.slice_.any (fun x => x == 0)) =
            true := by
          rw [List.any_eq_true]
          exact ⟨e, he, by rw [List.any_eq_true]; exact ⟨0, h0, by simp⟩⟩
        rw [effectiveTailMode, if_pos hany] at hmode
        cases hmode
  rw [Tail.build, hmode] at hb
  by_cases hall : entries.all (fun e => !e.is_empty)
  · rw [if_pos hall] at hb
    injection hb with h
    injection h with h1 h2
    have hz2 : ∀ e ∈ (sortBy (fun a b => sliceLe a.slice_ b.slice_)
        (setIdsFrom 0 entries)).reverse, 0 ∉ e.slice_ := by
      intro e he
      rw [List.mem_reverse] at he
      have hmem := (sortBy_perm _ _).mem_iff.mp he
      obtain ⟨e0, he0, hs⟩ := slice_mem_of_mem_setIdsFrom hmem
      rw [hs]
      exact hz e0 he0
    obtain ⟨pieces, hbuf, hzero⟩ :=
      buildLoop_text_shape
        ((sortBy (fun a b => sliceLe a.slice_ b.slice_)
          (setIdsFrom 0 entries)).reverse)
        ⟨[], [], List.replicate entries.length 0, none⟩
        hz2 ⟨[], by simp, by simp⟩
    exact ⟨pieces, by rw [← h1]; exact hbuf, hzero⟩
  · rw [if_neg hall] at hb
    cases hb

/-- Witness for C4 at the concrete entry vector [[1,2]], whose Text build
yields buffer [2,1,0]. -/
theorem tail_text_mode_buffer_invariant_witness :
    ∃ pieces : List (List Nat),
      (⟨[2, 1, 0], []⟩ : Tail).buf_ =
        (pieces.map (fun p => p ++ [0])).flatten ∧
      ∀ p ∈ pieces, 0 ∉ p :=
  tail_text_mode_buffer_invariant [⟨[1, 2], 0⟩] .Text ⟨[2, 1, 0], []⟩ [0]
    (by decide) (by decide)

/-- Helper: the Text walk stops exactly at the NUL closing a zero-free
block. -/
lemma textRestore_closed (xs rest : List Nat) (h : 0 ∉ xs) :
    textRestore (xs ++ 0 :: rest) = xs := by
  induction xs with
  | nil => simp [textRestore]
  | cons c cs ih =>
      have hc : c ≠ 0 := fun h0 => h (h0 ▸ List.mem_cons_self c cs)
      rw [List.cons_append, textRestore, if_neg hc,
        ih (fun hm => h (List.mem_cons_of_mem c hm))]

/-- Helper: the Binary walk stops exactly at the end flag closing a
block. -/
lemma binRestore_closed :
    ∀ (xs rest : List Nat) (frest : List Bool), xs ≠ [] →
      binRestore (xs ++ rest)
        (List.replicate (xs.length - 1) false ++ true :: frest) = xs := by
  intro xs
  induction xs with
  | nil => intro rest frest h; exact absurd rfl h
  | cons a xs ih =>
      intro rest frest _
      cases xs with
      | nil => simp [binRestore]
      | cons b cs =>
          have ih2 := ih rest frest (by simp)
          simp only [List.length_cons, Nat.add_sub_cancel,
            List.cons_append] at ih2 ⊢
          rw [List.replicate_succ]
          simp only [binRestore, List.append_eq]
          rw [if_neg (by simp), ih2]

/-- Helper: a good region restores to the reversed stored bytes. -/
lemma regionOK_restore (mode : TailMode) (buf : List Nat)
    (flags : List Bool) (o : Nat) (bs : List Nat) (key_out : List Nat)
    (hne : bs ≠ [])
    (hflags : mode = .Text → flags = [])
    (h : RegionOK mode buf flags o bs) :
    Tail.restore ⟨buf, flags⟩ o key_out = .ok (key_out ++ bs.reverse) := by
  cases mode with
  | Text =>
      obtain ⟨h0, rest, hdrop⟩ := h
      have hbuf : buf ≠ [] := by
        intro hb
        rw [hb] at hdrop
        simp at hdrop
      rw [Tail.restore, if_neg (by simpa using hbuf),
        if_pos (by simp [hflags rfl])]
      rw [hdrop, textRestore_closed _ _ (by simpa using h0)]
  | Binary =>
      obtain ⟨rest, frest, hdrop, hfdrop⟩ := h
      have hbuf : buf ≠ [] := by
        intro hb
        rw [hb] at hdrop
        have : bs.reverse = [] := by
          cases hr : bs.reverse with
          | nil => rfl
          | cons x xs => rw [hr] at hdrop; simp at hdrop
        simp at this
        exact hne this
      have hflags2 : flags ≠ [] := by
        intro hf
        rw [hf] at hfdrop
        simp at hfdrop
      rw [Tail.restore, if_neg (by simpa using hbuf),
        if_neg (by simpa using hflags2)]
      rw [hdrop, hfdrop, ← List.length_reverse bs,
        binRestore_closed _ _ _ (by simpa using hne)]

/-- Helper: good regions survive appends at the end of buffer and flags. -/
lemma regionOK_append (mode : TailMode) (buf : List Nat) (flags : List Bool)
    (o : Nat) (bs : List Nat) (bufx : List Nat) (flagsx : List Bool)
    (hne : bs ≠ [])
    (h : RegionOK mode buf flags o bs) :
    RegionOK mode (buf ++ bufx) (flags ++ flagsx) o bs := by
  cases mode with
  | Text =>
      obtain ⟨h0, rest, hdrop⟩ := h
      have ho : o ≤ buf.length := by
        by_contra hgt
        rw [List.drop_eq_nil_of_le (by omega)] at hdrop
        simp at hdrop
      refine ⟨h0, rest ++ bufx, ?_⟩
      rw [List.drop_append_of_le_length ho, hdrop]
      simp
  | Binary =>
      obtain ⟨rest, frest, hdrop, hfdrop⟩ := h
      have ho : o ≤ buf.length := by
        by_contra hgt
        rw [List.drop_eq_nil_of_le (by omega)] at hdrop
        have : bs.reverse = [] := by
          cases hr : bs.reverse with
          | nil => rfl
          | cons x xs => rw [hr] at hdrop; simp at hdrop
        simp at this
        exact hne this
      have hof : o ≤ flags.length := by
        by_contra hgt
        rw [List.drop_eq_nil_of_le (by omega)] at hfdrop
        simp at hfdrop
      refine ⟨rest ++ bufx, frest ++ flagsx, ?_, ?_⟩
      · rw [List.drop_append_of_le_length ho, hdrop]
        simp
      · rw [List.drop_append_of_le_length hof, hfdrop]
        simp

/-- Helper: sharing an offset into a longer stored entry: if `a` is a
prefix of `b` and `b`'s region is good at `o`, then `a`'s region is good at
`o + (len b - len a)`. -/
lemma regionOK_shared (mode : TailMode) (buf : List Nat) (flags : List Bool)
    (o : Nat) (a b : List Nat) (hpre : a <+: b) (ha : a ≠ [])
    (h : RegionOK mode buf flags o b) :
    RegionOK mode buf flags (o + (b.length - a.length)) a := by
  obtain ⟨tl, rfl⟩ := hpre
  have hd : (a ++ tl).length - a.length = tl.length := by simp
  rw [hd]
  have hrev : (a ++ tl).reverse = tl.reverse ++ a.reverse := by simp
  cases mode with
  | Text =>
      obtain ⟨h0, rest, hdrop⟩ := h
      refine ⟨fun hm => h0 (List.mem_append.mpr (Or.inl hm)), rest, ?_⟩
      rw [← List.drop_drop]
      rw [hdrop, hrev, List.append_assoc]
      rw [← List.length_reverse tl, List.drop_left]
  | Binary =>
      obtain ⟨rest, frest, hdrop, hfdrop⟩ := h
      have ha1 : 1 ≤ a.length := by
        cases a with
        | nil => exact absurd rfl ha
        | cons x xs => simp
      refine ⟨rest, frest, ?_, ?_⟩
      · rw [← List.drop_drop]
        rw [hdrop, hrev, List.append_assoc]
        rw [← List.length_reverse tl, List.drop_left]
      · rw [← List.drop_drop]
        rw [hfdrop]
        have hlen : tl.length ≤ (a ++ tl).length - 1 := by
          simp only [List.length_append]
          omega
        rw [List.drop_append_of_le_length (by simpa using hlen),
          List.drop_replicate]
        have : (a ++ tl).length - 1 - tl.length = a.length - 1 := by
          simp only [List.length_append]
          omega
        rw [this]

/-- Helper: getD after setting the same in-bounds index. -/
lemma getD_set_self (l : List Nat) (i : Nat) (v : Nat) (h : i < l.length) :
    (l.set i v).getD i 0 = v := by
  rw [List.getD_eq_getElem?_getD, List.getElem?_set_self h]
  rfl

/-- Helper: getD after setting a different index. -/
lemma getD_set_ne (l : List Nat) (i j : Nat) (v : Nat) (h : i ≠ j) :
    (l.set i v).getD j 0 = l.getD j 0 := by
  rw [List.getD_eq_getElem?_getD, List.getElem?_set_ne h,
    ← List.getD_eq_getElem?_getD]

/-- Helper: one build step covers the current entry and preserves the
state invariant and every previously covered region at an untouched id. -/
lemma buildStep_inv (mode : TailMode) (n : Nat) (st : BuildState) (e : Entry)
    (h1 : st.tmp.length = n)
    (h2 : mode = .Text → st.endFlags = [])
    (h3 : mode = .Binary → st.endFlags.length = st.buf.length)
    (hid : e.get_id < n) (hne : e.slice_ ≠ [])
    (hz : mode = .Text → 0 ∉ e.slice_)
    (h6 : ∀ last, st.optLast = some last →
      last.slice_ ≠ [] ∧
      RegionOK mode st.buf st.endFlags (st.tmp.getD last.get_id 0)
        last.slice_) :
    (buildStep mode st e).tmp.length = n ∧
    (mode = .Text → (buildStep mode st e).endFlags = []) ∧
    (mode = .Binary →
      (buildStep mode st e).endFlags.length =
        (buildStep mode st e).buf.length) ∧
    RegionOK mode (buildStep mode st e).buf (buildStep mode st e).endFlags
      ((buildStep mode st e).tmp.getD e.get_id 0) e.slice_ ∧
    (∀ e2 : Entry, e2.get_id ≠ e.get_id → e2.slice_ ≠ [] →
      RegionOK mode st.buf st.endFlags (st.tmp.getD e2.get_id 0) e2.slice_ →
      RegionOK mode (buildStep mode st e).buf (buildStep mode st e).endFlags
        ((buildStep mode st e).tmp.getD e2.get_id 0) e2.slice_) ∧
    (buildStep mode st e).optLast = some e := by
  have hidt : e.get_id < st.tmp.length := by omega
  have hpush : (pushEntry mode st e).tmp.length = n ∧
      (mode = .Text → (pushEntry mode st e).endFlags = []) ∧
      (mode = .Binary →
        (pushEntry mode st e).endFlags.length =
          (pushEntry mode st e).buf.length) ∧
      RegionOK mode (pushEntry mode st e).buf (pushEntry mode st e).endFlags
        ((pushEntry mode st e).tmp.getD e.get_id 0) e.slice_ ∧
      (∀ e2 : Entry, e2.get_id ≠ e.get_id → e2.slice_ ≠ [] →
        RegionOK mode st.buf st.endFlags (st.tmp.getD e2.get_id 0)
          e2.slice_ →
        RegionOK mode (pushEntry mode st e).buf
          (pushEntry mode st e).endFlags
          ((pushEntry mode st e).tmp.getD e2.get_id 0) e2.slice_) ∧
      (pushEntry mode st e).optLast = some e := by
    refine ⟨by simp [pushEntry, h1], ?_, ?_, ?_, ?_, rfl⟩
    · intro hm
      subst hm
      simp [pushEntry, h2 rfl]
    · intro hm
      subst hm
      have hlen : 1 ≤ e.slice_.length := by
        cases he : e.slice_ with
        | nil => exact absurd he hne
        | cons x xs => simp [he]
      simp only [pushEntry, List.length_append, List.length_reverse,
        List.length_replicate, h3 rfl, Entry.len]
      simp
      omega
    · rw [show (pushEntry mode st e).tmp = st.tmp.set e.get_id st.buf.length
        from rfl, getD_set_self _ _ _ hidt]
      cases mode with
      | Text =>
          refine ⟨hz rfl, [], ?_⟩
          show List.drop st.buf.length
            (st.buf ++ e.slice_.reverse ++ [0]) = e.slice_.reverse ++ 0 :: []
          rw [List.append_assoc, List.drop_left]
      | Binary =>
          refine ⟨[], [], ?_, ?_⟩
          · show List.drop st.buf.length
              (st.buf ++ e.slice_.reverse ++ []) = e.slice_.reverse ++ []
            rw [List.append_assoc, List.drop_left]
          · show List.drop st.buf.length
              (st.endFlags ++ (List.replicate (e.len - 1) false ++ [true])) =
              List.replicate (e.slice_.length - 1) false ++ true :: []
            rw [← h3 rfl, List.drop_left]
            rfl
    · intro e2 hne2 hne22 hreg
      have htmp : (pushEntry mode st e).tmp.getD e2.get_id 0 =
          st.tmp.getD e2.get_id 0 := by
        rw [show (pushEntry mode st e).tmp = st.tmp.set e.get_id st.buf.length
          from rfl, getD_set_ne _ _ _ _ (fun h => hne2 h.symm)]
      rw [htmp]
      cases mode with
      | Text =>
          have h := regionOK_append .Text st.buf st.endFlags
            (st.tmp.getD e2.get_id 0) e2.slice_ (e.slice_.reverse ++ [0]) []
            hne22 hreg
          rw [List.append_nil] at h
          have hbuf : (pushEntry .Text st e).buf =
              st.buf ++ (e.slice_.reverse ++ [0]) := by
            simp [pushEntry]
          have hfl : (pushEntry .Text st e).endFlags = st.endFlags := by
            simp [pushEntry]
          rw [hbuf, hfl]
          exact h
      | Binary =>
          have h := regionOK_append .Binary st.buf st.endFlags
            (st.tmp.getD e2.get_id 0) e2.slice_ e.slice_.reverse
            (List.replicate (e.len - 1) false ++ [true]) hne22 hreg
          have hbuf : (pushEntry .Binary st e).buf =
              st.buf ++ e.slice_.reverse := by
            simp [pushEntry]
          have hfl : (pushEntry .Binary st e).endFlags =
              st.endFlags ++ (List.replicate (e.len - 1) false ++ [true]) := by
            simp [pushEntry]
          rw [hbuf, hfl]
          exact h
  cases hl : st.optLast with
  | none =>
      have hb : buildStep mode st e = pushEntry mode st e := by
        simp only [buildStep, hl]
      rw [hb]
      exact hpush
  | some last =>
      by_cases hcc : common_count e.slice_ last.slice_ = e.len
      · have hb : buildStep mode st e =
            { st with
              tmp := st.tmp.set e.get_id
                (st.tmp.getD last.get_id 0 + (last.len - e.len)),
              optLast := some e } := by
          simp only [buildStep, hl]
          rw [if_pos hcc]
        rw [hb]
        obtain ⟨hlne, hlreg⟩ := h6 last hl
        have hpre : e.slice_ <+: last.slice_ :=
          (common_count_eq_length_iff e.slice_ last.slice_).mp hcc
        refine ⟨by simp [h1], h2, h3, ?_, ?_, rfl⟩
        · show RegionOK mode st.buf st.endFlags
            ((st.tmp.set e.get_id
              (st.tmp.getD last.get_id 0 + (last.len - e.len))).getD
                e.get_id 0) e.slice_
          rw [getD_set_self _ _ _ hidt]
          exact regionOK_shared mode st.buf st.endFlags _ e.slice_
            last.slice_ hpre hne hlreg
        · intro e2 hne2 hne22 hreg
          show RegionOK mode st.buf st.endFlags _ e2.slice_
          rw [getD_set_ne _ _ _ _ (fun h => hne2 h.symm)]
          exact hreg
      · have hb : buildStep mode st e = pushEntry mode st e := by
          simp only [buildStep, hl]
          rw [if_neg hcc]
        rw [hb]
        exact hpush

/-- Helper: the whole build loop covers every processed entry and
preserves covered regions at ids it does not touch. -/
lemma buildLoop_inv (mode : TailMode) (n : Nat) :
    ∀ (es : List Entry) (st : BuildState),
      st.tmp.length = n →
      (mode = .Text → st.endFlags = []) →
      (mode = .Binary → st.endFlags.length = st.buf.length) →
      (∀ e ∈ es, e.get_id < n ∧ e.slice_ ≠ [] ∧
        (mode = .Text → 0 ∉ e.slice_)) →
      (es.map Entry.get_id).Nodup →
      (∀ last, st.optLast = some last → last.slice_ ≠ [] ∧
        RegionOK mode st.buf st.endFlags (st.tmp.getD last.get_id 0)
          last.slice_) →
      (∀ e2 : Entry, e2.slice_ ≠ [] →
        e2.get_id ∉ es.map Entry.get_id →
        RegionOK mode st.buf st.endFlags (st.tmp.getD e2.get_id 0)
          e2.slice_ →
        RegionOK mode (buildLoop mode st es).buf
          (buildLoop mode st es).endFlags
          ((buildLoop mode st es).tmp.getD e2.get_id 0) e2.slice_) ∧
      (∀ e ∈ es, RegionOK mode (buildLoop mode st es).buf
        (buildLoop mode st es).endFlags
        ((buildLoop mode st es).tmp.getD e.get_id 0) e.slice_) := by
  intro es
  induction es with
  | nil =>
      intro st h1 h2 h3 h4 h5 h6
      exact ⟨fun e2 _ _ hreg => hreg,
        fun e he => absurd he (List.not_mem_nil e)⟩
  | cons e es ih =>
      intro st h1 h2 h3 h4 h5 h6
      obtain ⟨hid, hne, hz⟩ := h4 e (List.mem_cons_self e es)
      obtain ⟨s1, s2, s3, s4, s5, s6⟩ :=
        buildStep_inv mode n st e h1 h2 h3 hid hne hz h6
      rw [List.map_cons, List.nodup_cons] at h5
      obtain ⟨hnotin, h5t⟩ := h5
      have ihres := ih (buildStep mode st e) s1 s2 s3
        (fun f hf => h4 f (List.mem_cons_of_mem e hf)) h5t
        (fun last hlast => by
          rw [s6] at hlast
          injection hlast with hh
          subst hh
          exact ⟨hne, s4⟩)
      rw [buildLoop]
      constructor
      · intro e2 hne2 hnotin2 hreg
        rw [List.map_cons, List.mem_cons] at hnotin2
        push_neg at hnotin2
        exact ihres.1 e2 hne2 hnotin2.2 (s5 e2 hnotin2.1 hne2 hreg)
      · intro f hf
        rcases List.mem_cons.mp hf with hf1 | hf2
        · subst hf1
          exact ihres.1 f hne hnotin s4
        · exact ihres.2 f hf2

/-- Helper: the loop does not change the length of the offsets array. -/
lemma buildLoop_tmp_length (mode : TailMode) :
    ∀ (es : List Entry) (st : BuildState),
      (buildLoop mode st es).tmp.length = st.tmp.length := by
  intro es
  induction es with
  | nil => intro st; rfl
  | cons e es ih =>
      intro st
      rw [buildLoop, ih]
      cases hl : st.optLast with
      | none => simp [buildStep, hl, pushEntry]
      | some last =>
          simp only [buildStep, hl]
          split
          · simp
          · simp [pushEntry]

/-- Helper: id assignment keeps the list length. -/
lemma setIdsFrom_length : ∀ (k : Nat) (es : List Entry),
    (setIdsFrom k es).length = es.length := by
  intro k es
  induction es generalizing k with
  | nil => rfl
  | cons e es ih => simp [setIdsFrom, ih]

/-- Helper: the assigned ids are consecutive from the start index. -/
lemma setIdsFrom_map_get_id : ∀ (k : Nat) (es : List Entry),
    (setIdsFrom k es).map Entry.get_id = List.range' k es.length := by
  intro k es
  induction es generalizing k with
  | nil => rfl
  | cons e es ih =>
      rw [setIdsFrom, List.map_cons, ih, List.length_cons,
        List.range'_succ]
      rfl

/-- Helper: the entry at index j of the id-assigned list is the original
entry at j carrying id k+j. -/
lemma setIdsFrom_get : ∀ (k : Nat) (es : List Entry) (j : Nat)
    (hj : j < es.length),
    (setIdsFrom k es).get ⟨j, by rw [setIdsFrom_length]; exact hj⟩ =
      (es.get ⟨j, hj⟩).set_id (k + j) := by
  intro k es
  induction es generalizing k with
  | nil => intro j hj; cases hj
  | cons e es ih =>
      intro j hj
      cases j with
      | zero => rfl
      | succ m =>
          have hm : m < es.length := Nat.lt_of_succ_lt_succ hj
          have := ih (k + 1) m hm
          simp only [setIdsFrom, List.get_cons_succ]
          rw [this]
          congr 1
          omega

/-- Helper: if the effective mode stays Text, no entry holds a zero
byte. -/
lemma effectiveTailMode_text (entries : List Entry) (mode : TailMode)
    (h : effectiveTailMode entries mode = .Text) :
    ∀ e ∈ entries, 0 ∉ e.slice_ := by
  cases mode with
  | Binary => cases h
  | Text =>
      intro e he h0
      have hany : entries.any (fun e => e.slice_.any (fun x => x == 0)) =
          true := by
        rw [List.any_eq_true]
        exact ⟨e, he, by rw [List.any_eq_true]; exact ⟨0, h0, by simp⟩⟩
      rw [effectiveTailMode, if_pos hany] at h
      cases h

/-- C1: TAIL restore round-trip.  For every entry vector accepted by
Tail::build (all entries non-empty) under either tail mode, the offsets
vector has one offset per entry, and restoring at offset[id(e)] appends to
the output exactly the bytes of e reversed — including entries whose offset
was shared into a longer entry's storage rather than freshly appended. -/
theorem tail_build_restore_roundtrip (entries : List Entry)
    (mode : TailMode) (t : Tail) (offsets : List Nat)
    (hb : Tail.build entries mode = .ok (t, offsets)) :
    offsets.length = entries.length ∧
    ∀ (j : Nat) (hj : j < entries.length) (key_out : List Nat),
      Tail.restore t (offsets.getD j 0) key_out =
        .ok (key_out ++ (entries.get ⟨j, hj⟩).slice_.reverse) := by
  rw [Tail.build] at hb
  by_cases hall : entries.all (fun e => !e.is_empty)
  · rw [if_pos hall] at hb
    injection hb with hb
    injection hb with h1 h2
    set mode1 := effectiveTailMode entries mode with hm1
    set st0 : BuildState :=
      ⟨[], [], List.replicate entries.length 0, none⟩ with hst0
    set L := (sortBy (fun a b => sliceLe a.slice_ b.slice_)
      (setIdsFrom 0 entries)).reverse with hLdef
    have hallp : ∀ e ∈ entries, e.slice_ ≠ [] := by
      rw [List.all_eq_true] at hall
      intro e he
      have h := hall e he
      simpa [Entry.is_empty, List.isEmpty_eq_false] using h
    have hz_all : mode1 = .Text → ∀ e ∈ entries, 0 ∉ e.slice_ :=
      fun hmt => effectiveTailMode_text entries mode hmt
    have hmemL : ∀ e ∈ L, ∃ j, ∃ hj : j < entries.length,
        e = (entries.get ⟨j, hj⟩).set_id j := by
      intro e he
      rw [hLdef, List.mem_reverse] at he
      have he2 := (sortBy_perm _ _).mem_iff.mp he
      obtain ⟨⟨j, hjlen⟩, hget⟩ := List.mem_iff_get.mp he2
      have hj : j < entries.length := by
        rwa [setIdsFrom_length] at hjlen
      refine ⟨j, hj, ?_⟩
      rw [← hget]
      have h3 := setIdsFrom_get 0 entries j hj
      rw [Nat.zero_add] at h3
      exact h3
    have h4 : ∀ e ∈ L, e.get_id < entries.length ∧ e.slice_ ≠ [] ∧
        (mode1 = .Text → 0 ∉ e.slice_) := by
      intro e he
      obtain ⟨j, hj, rfl⟩ := hmemL e he
      refine ⟨hj, ?_, fun hmt => ?_⟩
      · show (entries.get ⟨j, hj⟩).slice_ ≠ []
        exact hallp _ (List.get_mem entries j hj)
      · show 0 ∉ (entries.get ⟨j, hj⟩).slice_
        exact hz_all hmt _ (List.get_mem entries j hj)
    have h5 : (L.map Entry.get_id).Nodup := by
      rw [hLdef, List.map_reverse, List.nodup_reverse]
      have hperm := (sortBy_perm (fun a b => sliceLe a.slice_ b.slice_)
        (setIdsFrom 0 entries)).map Entry.get_id
      rw [List.Perm.nodup_iff hperm, setIdsFrom_map_get_id]
      exact List.nodup_range' 0 entries.length
    have hloopinv := buildLoop_inv mode1 entries.length L st0
      (by simp [hst0]) (fun _ => rfl) (fun _ => rfl) h4 h5
      (fun last hlast => Option.noConfusion hlast)
    refine ⟨?_, ?_⟩
    · rw [← h2, buildLoop_tmp_length]
      simp [hst0]
    · intro j hj key_out
      have hejL : ((entries.get ⟨j, hj⟩).set_id j) ∈ L := by
        rw [hLdef, List.mem_reverse]
        apply (sortBy_perm _ _).mem_iff.mpr
        have h3 := setIdsFrom_get 0 entries j hj
        rw [Nat.zero_add] at h3
        rw [← h3]
        exact List.get_mem _ _ _
      have hreg := hloopinv.2 _ hejL
      rw [← h1, ← h2]
      exact regionOK_restore mode1 _ _ _ _ key_out
        (hallp _ (List.get_mem entries j hj))
        (fun hmt => by
          rw [hmt]
          rw [buildLoop_text_endFlags])
        hreg
  · rw [if_neg hall] at hb
    exact Except.noConfusion hb

/-- Witness for C1: entries [[1,2],[1]] in Text mode; [1]'s offset 1 is
shared into [1,2]'s storage, and restore at it yields [1] reversed. -/
theorem tail_build_restore_roundtrip_witness :
    Tail.restore ⟨[2, 1, 0], []⟩ 1 [] = .ok [1] := by
  have h := (tail_build_restore_roundtrip [⟨[1, 2], 9⟩, ⟨[1], 7⟩] .Text
    ⟨[2, 1, 0], []⟩ [0, 1] (by decide)).2 1 (by decide) []
  simpa using h
